import Mathlib

/-!
Verification development for the lua-in-js runtime core: shallow embedding of
the hybrid table (Table.ts), the length computation (getn), the operator
dispatcher (operators.ts), the scope chain (Scope.ts), the coroutine scheduler
(Thread.ts), and the base-library functions rawset/pcall (lib/globals.ts),
together with theorems settling the specification claims.

Modelling conventions:
- JS `undefined` (the engine's absent/nil marker) is `LV.nil`.
- IEEE doubles are modelled as `LuaNum`: NaN, the two infinities, and finite
  values as exact rationals.  Rounding of double arithmetic is not modelled;
  no claim under consideration depends on it.
- JS arrays with holes are `List (Option LV)`: `none` is a hole (no own
  property), `some v` an own property holding `v` (`some LV.nil` is an own
  property whose value is `undefined`, as produced by `a[i] = undefined`).
- Tables are mutable references: a `Heap` is a list of `TableData` indexed by
  reference number; `LV.table r` points into it.
- Host functions are identified by id; invoking one goes through an explicit
  oracle (`App`) mapping (id, arguments, heap) to (heap, returned JS value),
  mirroring that a JS call can mutate tables and return anything.
-/

namespace LuaInJs

/-- Model of a JS number as used by the runtime: IEEE-754 double collapsed to
NaN, +inf, -inf, or an exact finite rational. -/
inductive LuaNum where
  | nan
  | pinf
  | ninf
  | fin (q : ℚ)
deriving Repr, DecidableEq

/-- Model of `LuaType` (src/utils.ts): undefined | boolean | number | string |
Function | Table | Thread.  Functions, tables and threads are identified by
reference ids into an ambient heap. -/
inductive LV where
  | nil
  | boolean (b : Bool)
  | num (n : LuaNum)
  | str (s : String)
  | fn (id : Nat)
  | table (r : Nat)
  | thr (id : Nat)
deriving Repr, DecidableEq

/-- JS strict equality `===` on numbers: NaN is not equal to anything,
including itself. -/
def numStrictEq : LuaNum → LuaNum → Bool
  | .nan, _ => false
  | _, .nan => false
  | .pinf, .pinf => true
  | .ninf, .ninf => true
  | .fin a, .fin b => a == b
  | _, _ => false

/-- JS strict equality `===` on runtime values: value equality for primitives
(NaN excepted), reference equality for functions, tables and threads. -/
def jsStrictEq : LV → LV → Bool
  | .nil, .nil => true
  | .boolean a, .boolean b => a == b
  | .num a, .num b => numStrictEq a b
  | .str a, .str b => a == b
  | .fn a, .fn b => a == b
  | .table a, .table b => a == b
  | .thr a, .thr b => a == b
  | _, _ => false

/-- JS truthiness: undefined, false, 0, NaN and the empty string are falsy;
objects (tables, functions, threads) are always truthy.  This is the test the
runtime applies with `if (mm)` when it checks a fetched metamethod. -/
def jsTruthy : LV → Bool
  | .nil => false
  | .boolean b => b
  | .num .nan => false
  | .num (.fin q) => !(q == 0)
  | .num _ => true
  | .str s => !(s == "")
  | _ => true

/-- Decimal rendering of a number per `coerceToString` (src/utils.ts):
undefined maps to "nil", infinities to "inf"/"-inf", NaN to "nan", and a
finite value to its JS decimal text.  For non-integral finite values the JS
decimal expansion of a double is approximated by the rational's `num/den`
text; no claim depends on the text of a non-integral key. -/
def numToStr : LuaNum → String
  | .nan => "nan"
  | .pinf => "inf"
  | .ninf => "-inf"
  | .fin q => if q.den = 1 then toString q.num else toString q

/-- Model of `coerceToString` (src/utils.ts) with no error message: strings
pass through, undefined gives "nil", numbers/booleans their text, and any
other value (no error message supplied) gives "nil". -/
def coerceToStr : LV → String
  | .str s => s
  | .nil => "nil"
  | .num n => numToStr n
  | .boolean b => if b then "true" else "false"
  | _ => "nil"

/-- Model of the `tostring` helper of src/src/Table.ts as used for generic
table keys: tables, functions and threads render as a per-object address
string (the source draws a random string once per object and caches it; the
reference id plays that role here, deterministically), anything else through
`coerceToStr`.  The `__tostring` metamethod consultation for table-valued
keys is not modelled; no claim uses a table as a key. -/
def tostringKey : LV → String
  | .table r => "table: 0x" ++ toString r
  | .fn i => "function: 0x" ++ toString i
  | .thr i => "thread: 0x" ++ toString i
  | v => coerceToStr v

/-- The numeric-key test of `Table.rawget`/`Table.rawset`
(src/src/Table.ts): `key > 0 && key % 1 === 0`, i.e. a strictly positive
integer; infinities and NaN fail the `% 1 === 0` test.  Returns the array
index when the test passes. -/
def posIntKey : LuaNum → Option Nat
  | .fin q => if 0 < q ∧ q.den = 1 then some q.num.toNat else none
  | _ => none

/-- JS array write `l[k] = v`: overwrite in range, otherwise extend with
holes up to index `k`. -/
def setIdx (l : List (Option LV)) (k : Nat) (v : LV) : List (Option LV) :=
  if k < l.length then l.set k (some v)
  else l ++ List.replicate (k - l.length) none ++ [some v]

/-- JS array read `l[k]`: holes, stored undefined, and out-of-range reads all
give undefined. -/
def readIdx (l : List (Option LV)) (k : Nat) : LV :=
  match l.get? k with
  | some (some v) => v
  | _ => LV.nil

/-- JS `hasOwnProperty` on an array index: true for an own property even when
its stored value is undefined, false for holes and out-of-range. -/
def ownIdx (l : List (Option LV)) (k : Nat) : Bool :=
  match l.get? k with
  | some (some _) => true
  | _ => false

/-- Lookup in a string-keyed JS object modelled as an insertion-ordered
association list. -/
def strLookup (m : List (String × LV)) (k : String) : Option LV :=
  (m.find? (fun p => p.1 == k)).map (fun p => p.2)

/-- JS object property write: update the existing entry, else append. -/
def strUpdate (m : List (String × LV)) (k : String) (v : LV) : List (String × LV) :=
  if (m.find? (fun p => p.1 == k)).isSome then
    m.map (fun p => if p.1 == k then (k, v) else p)
  else m ++ [(k, v)]

/-- JS `Array.prototype.indexOf` (first occurrence). -/
def idxOfKey (l : List String) (k : String) : Option Nat :=
  l.findIdx? (fun s => s == k)

/-- Model of the `Table` value (src/src/Table.ts): hybrid container with the
array part `numValues` (index 0 the reserved slot, initialised to stored
undefined), the string part `strValues`, the aligned generic key/value pair
lists, and an optional metatable reference. -/
structure TableData where
  numValues : List (Option LV)
  strValues : List (String × LV)
  keys : List String
  values : List (Option LV)
  metatable : Option Nat
deriving Repr, DecidableEq

/-- A freshly constructed table: `numValues = [undefined]`, everything else
empty (src/src/Table.ts constructor with no initialiser). -/
def newTable : TableData :=
  ⟨[some LV.nil], [], [], [], none⟩

/-- The generic-part lookup at the end of `Table.rawget`: find the string form
of the key in `keys` and return the aligned value, else undefined. -/
def genericGet (t : TableData) (key : LV) : LV :=
  match idxOfKey t.keys (tostringKey key) with
  | some i => readIdx t.values i
  | none => LV.nil

/-- Model of `Table.rawget` (src/src/Table.ts): string keys hit `strValues`
when the property is own, positive-integer keys hit `numValues`, everything
else (including a string/number key that missed) falls through to the generic
part. -/
def rawgetD (t : TableData) (key : LV) : LV :=
  match key with
  | .str s =>
    match strLookup t.strValues s with
    | some v => v
    | none => genericGet t key
  | .num n =>
    match posIntKey n with
    | some k => readIdx t.numValues k
    | none => genericGet t key
  | _ => genericGet t key

/-- The generic-part write at the end of `Table.rawset`: overwrite the aligned
value when the stringified key is already present, else append the key and
write the value at the aligned index. -/
def genericSet (t : TableData) (key : LV) (v : LV) : TableData :=
  match idxOfKey t.keys (tostringKey key) with
  | some i => { t with values := setIdx t.values i v }
  | none =>
    { t with values := setIdx t.values t.keys.length v,
             keys := t.keys ++ [tostringKey key] }

/-- Model of `Table.rawset` (src/src/Table.ts): string keys to `strValues`,
positive-integer keys to `numValues`, all other keys (nil, NaN, zero,
negative, fractional, booleans, objects) to the generic part under their
string form.  No key check of any kind is performed. -/
def rawsetD (t : TableData) (key : LV) (v : LV) : TableData :=
  match key with
  | .str s => { t with strValues := strUpdate t.strValues s v }
  | .num n =>
    match posIntKey n with
    | some k => { t with numValues := setIdx t.numValues k v }
    | none => genericSet t key v
  | _ => genericSet t key v

/-- The first loop of `getn` (src/src/Table.ts): starting from `j`, advance
while index `j+1` is an own property of the array (the source materialises
the own indices in `keys` with a for-in and tests `keys[j+1]`).  The loop is
bounded by the array length; `fuel` makes the recursion structural and is
instantiated with the array length at the call site, which the adequacy lemma
shows is enough. -/
def ownScan (vals : List (Option LV)) : Nat → Nat → Nat
  | 0, j => j
  | fuel + 1, j => if ownIdx vals (j + 1) then ownScan vals fuel (j + 1) else j

/-- The binary search of `getn`, translated from the ltable.c-derived loop:
while `j - i > 1`, probe the midpoint; a nil probe moves `j`, a present probe
moves `i`; return `i`.  `fuel` bounds the iteration count and is instantiated
with the initial `j` (the gap `j - i` strictly decreases each step). -/
def bsStep (vals : List (Option LV)) : Nat → Nat → Nat → Nat
  | 0, i, _ => i
  | fuel + 1, i, j =>
    if 1 < j - i then
      if readIdx vals ((i + j) / 2) = LV.nil then bsStep vals fuel i ((i + j) / 2)
      else bsStep vals fuel ((i + j) / 2) j
    else i

/-- The tail of `getn` after the prefix scan produced `j`: when `j > 0` and
the slot at `j` reads undefined there is a boundary strictly inside the own
prefix, found by binary search; otherwise `j` is returned as is. -/
def getnAux (vals : List (Option LV)) (j : Nat) : Nat :=
  if 0 < j ∧ readIdx vals j = LV.nil then bsStep vals j 0 j else j

/-- Model of `getn` (src/src/Table.ts): scan the own-property prefix of the
array part, then either return its length or binary-search for a boundary
inside it. -/
def getn (vals : List (Option LV)) : Nat :=
  getnAux vals (ownScan vals vals.length 0)

theorem ownIdx_lt_length {vals : List (Option LV)} {k : Nat}
    (h : ownIdx vals k = true) : k < vals.length := by
  unfold ownIdx at h
  rcases hg : vals.get? k with _ | s
  · rw [hg] at h; exact absurd h (by simp)
  · exact List.get?_eq_some.mp hg |>.1

theorem readIdx_ne_nil_own {vals : List (Option LV)} {k : Nat}
    (h : readIdx vals k ≠ LV.nil) : ownIdx vals k = true := by
  unfold readIdx at h
  unfold ownIdx
  cases hg : vals.get? k with
  | none => rw [hg] at h; exact absurd rfl h
  | some s =>
    cases s with
    | none => rw [hg] at h; exact absurd rfl h
    | some v => rfl

/-- Adequacy of the prefix scan: with fuel at least `length - j`, the scan
stops at a position whose successor is not an own property. -/
theorem ownScan_not_own (vals : List (Option LV)) :
    ∀ fuel j, vals.length - j ≤ fuel →
      ownIdx vals (ownScan vals fuel j + 1) = false := by
  intro fuel
  induction fuel with
  | zero =>
    intro j hj
    cases ho : ownIdx vals (j + 1) with
    | false => simpa [ownScan] using ho
    | true => exact absurd (ownIdx_lt_length ho) (by omega)
  | succ fuel ih =>
    intro j hj
    rcases ho : ownIdx vals (j + 1) with _ | _
    · simp [ownScan, ho]
    · have hlt := ownIdx_lt_length ho
      simpa [ownScan, ho] using ih (j + 1) (by omega)

/-- Specification of the binary search: given a present (or zero) lower end
and a nil upper end, it returns a boundary. -/
theorem bsStep_boundary (vals : List (Option LV)) :
    ∀ fuel i j, j - i ≤ fuel → i < j →
      readIdx vals j = LV.nil → (i = 0 ∨ readIdx vals i ≠ LV.nil) →
      ((bsStep vals fuel i j = 0 ∨ readIdx vals (bsStep vals fuel i j) ≠ LV.nil) ∧
        readIdx vals (bsStep vals fuel i j + 1) = LV.nil) := by
  intro fuel
  induction fuel with
  | zero => intro i j hfuel hij _ _; omega
  | succ fuel ih =>
    intro i j hfuel hij hj hi
    by_cases hgap : 1 < j - i
    · have hm1 : i < (i + j) / 2 := by omega
      have hm2 : (i + j) / 2 < j := by omega
      by_cases hmid : readIdx vals ((i + j) / 2) = LV.nil
      · simpa [bsStep, hgap, hmid] using ih i ((i + j) / 2) (by omega) hm1 hmid hi
      · simpa [bsStep, hgap, hmid] using ih ((i + j) / 2) j (by omega) hm2 hj (Or.inr hmid)
    · have hj1 : j = i + 1 := by omega
      simp only [bsStep, if_neg hgap]
      exact ⟨hi, hj1 ▸ hj⟩

/-- Every result of `getn` is a boundary of the array part: either 0 or a
present index, whose successor reads as absent. -/
theorem getn_boundary (vals : List (Option LV)) :
    (getn vals = 0 ∨ readIdx vals (getn vals) ≠ LV.nil) ∧
      readIdx vals (getn vals + 1) = LV.nil := by
  unfold getn getnAux
  have hscan := ownScan_not_own vals vals.length 0 (by omega)
  by_cases hcond : 0 < ownScan vals vals.length 0 ∧
      readIdx vals (ownScan vals vals.length 0) = LV.nil
  · simp only [if_pos hcond]
    exact bsStep_boundary vals (ownScan vals vals.length 0) 0
      (ownScan vals vals.length 0) (by omega) hcond.1 hcond.2 (Or.inl rfl)
  · simp only [if_neg hcond]
    constructor
    · rcases Decidable.not_and_iff_or_not.mp hcond with h | h
      · exact Or.inl (by omega)
      · exact Or.inr h
    · by_contra hne
      exact absurd (readIdx_ne_nil_own hne) (by simp [hscan])

/-- The heap of live tables: `LV.table r` points at entry `r`. -/
abbrev Heap := List TableData

/-- Dereference a table value in the heap.  A dangling reference yields a
fresh empty table; the source cannot produce one. -/
def hfind (h : Heap) (r : Nat) : TableData :=
  List.getD h r newTable

/-- Replace the table stored at reference `r`. -/
def hupdate (h : Heap) (r : Nat) (t : TableData) : Heap :=
  List.set h r t

/-- A JS return value: transpiled Lua functions return arrays of values, host
functions may return a bare value (`ensureArray`-style handling at call
sites). -/
inductive JsRet where
  | arr (vals : List LV)
  | scalar (v : LV)

/-- The `v instanceof Array ? v[0] : v` projection used by `Table.get` on the
result of an `__index` function. -/
def jsRetFirst : JsRet → LV
  | .arr l => l.headD LV.nil
  | .scalar v => v

/-- Invocation oracle for host/transpiled functions: a function id applied to
an argument list in a heap produces the (possibly mutated) heap and a JS
return value.  Metamethod bodies are arbitrary code; the embedding keeps them
abstract. -/
abbrev App := Nat → List LV → Heap → Heap × JsRet

/-- Model of `Table.getMetaMethod` (src/src/Table.ts):
`this.metatable && this.metatable.rawget(name)` — a RAW lookup on the
metatable, no chaining; null metatable gives the falsy null (here nil). -/
def getMetaMethod (h : Heap) (t : TableData) (name : String) : LV :=
  match t.metatable with
  | none => LV.nil
  | some m => rawgetD (hfind h m) (.str name)

/-- Model of `Table.get` (src/src/Table.ts).  The raw value is read first;
when it is absent and a metatable exists, the `__index` handler is fetched
with `this.metatable.get('__index')` — a CHAINED lookup that itself consults
the metatable's own metatable — and is then either recursed into (table
handler), invoked (function handler), or ignored (anything else, returning
the absent raw value).  `fuel` bounds the metatable-chain recursion (the
source would loop forever on a cyclic chain); `none` means fuel ran out. -/
def tget (app : App) : Nat → Heap → Nat → LV → Option (Heap × LV)
  | 0, _, _, _ => none
  | fuel + 1, h, r, key =>
    let value := rawgetD (hfind h r) key
    if value = LV.nil then
      match (hfind h r).metatable with
      | some mr =>
        match tget app fuel h mr (.str "__index") with
        | none => none
        | some (h1, mm) =>
          match mm with
          | .table hr => tget app fuel h1 hr key
          | .fn fid =>
            let pr := app fid [.table r, key] h1
            some (pr.1, jsRetFirst pr.2)
          | _ => some (h1, value)
      | none => some (h, value)
    else some (h, value)

/-- Model of `Table.set` (src/src/Table.ts).  The `__newindex` handler is
fetched with `this.metatable.get('__newindex')` (chained lookup); when it is
truthy and the current raw slot is absent, the write is delegated to the
handler (recursively for a table handler, via the oracle for a function
handler); in every other case the write falls through to `rawset`.  Returned
values of the handler are discarded, as callers of `set` discard them. -/
def tset (app : App) : Nat → Heap → Nat → LV → LV → Option Heap
  | 0, _, _, _, _ => none
  | fuel + 1, h, r, key, value =>
    match (hfind h r).metatable with
    | some mr =>
      match tget app fuel h mr (.str "__newindex") with
      | none => none
      | some (h1, mm) =>
        if jsTruthy mm then
          if rawgetD (hfind h1 r) key = LV.nil then
            match mm with
            | .table mmr => tset app fuel h1 mmr key value
            | .fn fid => some (app fid [.table r, key, value] h1).1
            | _ => some (hupdate h1 r (rawsetD (hfind h1 r) key value))
          else some (hupdate h1 r (rawsetD (hfind h1 r) key value))
        else some (hupdate h1 r (rawsetD (hfind h1 r) key value))
    | none => some (hupdate h r (rawsetD (hfind h r) key value))

/-- Decision of the `eq` operator (src/operators.ts).  The dispatcher either
invokes a metamethod value or answers with plain JS strict equality; this
type records which. -/
inductive EqRes where
  | viaMM (mm : LV)
  | plain (b : Bool)
deriving Repr, DecidableEq

/-- Model of the `eq` operator's dispatch (src/operators.ts):
`mm = right !== left && left instanceof Table && right instanceof Table &&
left.metatable === right.metatable && left.getMetaMethod('__eq')`; when `mm`
is truthy it is invoked, otherwise the result is `left === right`. -/
def eqDispatch (h : Heap) (l r : LV) : EqRes :=
  match l, r with
  | .table li, .table ri =>
    if li = ri then .plain (jsStrictEq (.table li) (.table ri))
    else if (hfind h li).metatable = (hfind h ri).metatable then
      if jsTruthy (getMetaMethod h (hfind h li) "__eq") then
        .viaMM (getMetaMethod h (hfind h li) "__eq")
      else .plain (jsStrictEq (.table li) (.table ri))
    else .plain (jsStrictEq (.table li) (.table ri))
  | _, _ => .plain (jsStrictEq l r)

/-- Decision of the `len` operator (src/operators.ts): metamethod invocation,
a directly computed number, or a raised domain error. -/
inductive LenRes where
  | viaMM (mm : LV)
  | direct (n : Nat)
  | err (m : String)
deriving Repr, DecidableEq

/-- Model of the `len` operator's dispatch (src/operators.ts): a table with a
truthy raw `__len` metamethod invokes it; a table without one answers
`getn`; a string answers its length; anything else raises. -/
def lenOp (h : Heap) (v : LV) : LenRes :=
  match v with
  | .table r =>
    if jsTruthy (getMetaMethod h (hfind h r) "__len") then
      .viaMM (getMetaMethod h (hfind h r) "__len")
    else .direct (getn (hfind h r).numValues)
  | .str s => .direct s.length
  | _ => .err "attempt to get length of an unsupported value"

/-- Model of the base-library `rawset` (src/lib/globals.ts): the only key
check in the engine — an absent (`undefined`) key raises "table index is
nil" before anything is written; every other key, NaN included, goes
straight to `Table.rawset`.  The table-argument coercion is outside the
model (the claims quantify over tables). -/
def libRawset (t : TableData) (index v : LV) : Except String TableData :=
  if index = LV.nil then .error "table index is nil"
  else .ok (rawsetD t index v)

/-- Model of `Table.insert` (src/src/Table.ts): `numValues.push(...values)`. -/
def tableInsertPush (t : TableData) (vs : List LV) : TableData :=
  { t with numValues := t.numValues ++ vs.map some }

/-- JS `Array.prototype.splice(pos, 0, x)` insertion index: negative
positions count from the end clamped at 0, positive ones are clamped at the
length. -/
def spliceIndex (len : Nat) (pos : Int) : Nat :=
  if pos < 0 then ((len : Int) + pos).toNat else min pos.toNat len

/-- Model of the three-argument `table.insert` (src/src/lib/table.ts):
splice an `undefined` hole-filler in at `pos`, then `TABLE.set(pos, value)`.
The `set` is modelled for a metatable-free table (where the source's
`set` falls through to `rawset`); positions are integers as produced by the
source's numeric coercion of an integral argument. -/
def libInsertAt (t : TableData) (pos : Int) (v : LV) : TableData :=
  let t1 := { t with
    numValues := t.numValues.insertIdx (spliceIndex t.numValues.length pos) (some LV.nil) }
  rawsetD t1 (.num (.fin (pos : ℚ))) v

/-- The hole-punching loop at the end of `table.remove`
(src/src/lib/table.ts): `while (i < max && vals[i] === undefined) delete
vals[i]`, turning stored-undefined slots into holes.  `fuel` is instantiated
with `max - i`, exactly the maximal number of iterations. -/
def clearUndefLoop (l : List (Option LV)) : Nat → Nat → List (Option LV)
  | 0, _ => l
  | fuel + 1, i => if readIdx l i = LV.nil then clearUndefLoop (l.set i none) fuel (i + 1) else l

/-- Model of `table.remove` (src/src/lib/table.ts): out-of-range positions
(`pos > getn` or `pos < 0`) leave the table untouched; otherwise the element
at `pos` is spliced out of `numValues` (shifting everything above it down)
and trailing undefined slots from `pos` are deleted.  The removed value is
dropped (the claims concern the table state). -/
def libRemove (t : TableData) (pos : Int) : TableData :=
  let mx := getn t.numValues
  if pos > (mx : Int) ∨ pos < 0 then t
  else
    let nv := t.numValues.eraseIdx pos.toNat
    { t with numValues := clearUndefLoop nv (mx - pos.toNat) pos.toNat }

/-- Model of `table.sort`'s effect on the array shape
(src/src/lib/table.ts): `arr.shift(); arr.sort(f); arr.unshift(undefined)` —
the old slot 0 is dropped, the remaining slots are reordered by the host
sort (carried here as the resulting tail, since it depends on the comparator
closure), and a stored undefined is pushed back at slot 0. -/
def libSortTo (t : TableData) (tail : List (Option LV)) : TableData :=
  { t with numValues := some LV.nil :: tail }

/-- The table operations claim C9 quantifies over, acting on a single
metatable-free table (for which `Table.set` falls through to `rawset`).
`sortTo` carries the comparator-dependent reordered tail. -/
inductive TblOp where
  | rawsetO (k v : LV)
  | setO (k v : LV)
  | insertPushO (vs : List LV)
  | insertAtO (pos : Int) (v : LV)
  | removeO (pos : Int)
  | sortO (tail : List (Option LV))

/-- Apply one table operation. -/
def applyOp (t : TableData) : TblOp → TableData
  | .rawsetO k v => rawsetD t k v
  | .setO k v => rawsetD t k v
  | .insertPushO vs => tableInsertPush t vs
  | .insertAtO pos v => libInsertAt t pos v
  | .removeO pos => libRemove t pos
  | .sortO tail => libSortTo t tail

/-- Apply a sequence of table operations from the left. -/
def applyOps (t : TableData) (ops : List TblOp) : TableData :=
  List.foldl applyOp t ops

/-- A remove operation with a positive position (the shape `table.remove`
takes for list elements; position 0 is the degenerate case the amended claim
C9 excludes). -/
def removeOK : TblOp → Prop
  | .removeO pos => 1 ≤ pos
  | _ => True

/-- The C9 sentinel: the array part is nonempty and its slot 0 holds a
stored undefined. -/
def sentinel0 (t : TableData) : Prop :=
  t.numValues.head? = some (some LV.nil)

/-- One lexical scope's own name map (the own properties of `_variables` in
src/src/Scope.ts). -/
abbrev Frame := List (String × LV)

/-- The `hasOwnProperty(this._variables, key)` test. -/
def frameHas (f : Frame) (k : String) : Bool :=
  (f.find? (fun p => p.1 == k)).isSome

/-- Own-property write on a scope's name map. -/
def frameSet (f : Frame) (k : String) (v : LV) : Frame :=
  if frameHas f k then f.map (fun p => if p.1 == k then (k, v) else p)
  else f ++ [(k, v)]

/-- Own-property read on a scope's name map. -/
def frameGet (f : Frame) (k : String) : Option LV :=
  (f.find? (fun p => p.1 == k)).map (fun p => p.2)

/-- A scope chain: head is the innermost scope, last is the root.  This is
the explicit linked-list rendering of the source's prototype-chained
`_variables` maps with parent pointers (src/src/Scope.ts). -/
abbrev SChain := List Frame

/-- Model of `Scope.get`: `this._variables[key]` reads through the prototype
chain — the nearest frame defining the name wins; an undefined name reads as
absent. -/
def sGet : SChain → String → LV
  | [], _ => LV.nil
  | f :: rest, k =>
    match frameGet f k with
    | some v => v
    | none => sGet rest k

/-- Model of `Scope.setLocal`: always writes the own map of this scope. -/
def sSetLocal : SChain → String → LV → SChain
  | [], _, _ => []
  | f :: rest, k, v => frameSet f k v :: rest

/-- Model of `Scope.set`: write locally when the name is an own property of
this scope or there is no parent, else delegate to the parent. -/
def sSet : SChain → String → LV → SChain
  | [], _, _ => []
  | [f], k, v => [frameSet f k v]
  | f :: g :: rest, k, v =>
    if frameHas f k then frameSet f k v :: g :: rest
    else f :: sSet (g :: rest) k v

/-- Model of `Scope.extend`: a child scope whose own map starts empty and
whose lookups fall through to this scope. -/
def sExtend (c : SChain) : SChain := [] :: c

/-- The index of the scope `Scope.set` writes to: the nearest frame defining
the key, or the root (last frame) when none does. -/
def setTargetIdx (c : SChain) (k : String) : Nat :=
  if c.findIdx (fun fr => frameHas fr k) < c.length then
    c.findIdx (fun fr => frameHas fr k)
  else c.length - 1

/-- Thread status (src/src/Thread.ts). -/
inductive TStatus where
  | running
  | suspended
  | dead
deriving Repr, DecidableEq

/-- A domain (`LuaError`) or host exception. -/
inductive JsExc where
  | lua (m : String)
  | host (m : String)
deriving Repr, DecidableEq

/-- `e.toString()` as `pcall` applies it: `LuaError.toString` prepends
"LuaError: " to the message (src/src/LuaError.ts); a host exception renders
its own text. -/
def excToString : JsExc → String
  | .lua m => "LuaError: " ++ m
  | .host m => m

/-- Behaviour of one generator step (`gen.next`): a yield with values, a
final return with values, or a thrown domain/host exception.  The source's
first step (which creates the generator from the factory with the resume
arguments) and later steps (which feed the arguments into the suspended
yield) have identical control structure and are folded into one oracle. -/
inductive StepRes where
  | yield (vs : List LV)
  | ret (vs : List LV)
  | luaErr (m : String)
  | hostErr (m : String)

/-- Everything observable after a `Thread.resume` call: its outcome, the
global `Thread.current` pointer, the thread's status, and its `last` list. -/
structure ResumeOut where
  result : Except JsExc (List LV)
  currentAfter : Nat
  statusAfter : TStatus
  lastAfter : List LV

/-- The value a generator step contributes as resume's outcome. -/
def stepOutcome : StepRes → Except JsExc (List LV)
  | .yield vs => .ok vs
  | .ret vs => .ok vs
  | .luaErr m => .error (.lua m)
  | .hostErr m => .error (.host m)

/-- Model of `Thread.resume` (src/src/Thread.ts).  A dead thread raises
"cannot resume dead coroutine" before anything else; otherwise the previous
`Thread.current` is saved, `current` is switched to this thread, the status
is set to running, the generator is advanced (the step oracle receives the
`current` in force during the body), and on EVERY exit path the `finally`
restores `current` to the saved value.  After a normal step the status is
suspended or dead according to `done`; when the step throws, the status
stays at the `running` it was set to and `last` is untouched. -/
def threadResume (step : Nat → StepRes) (self : Nat) (status : TStatus)
    (last : List LV) (cur : Nat) : ResumeOut :=
  if status = .dead then
    ⟨.error (.lua "cannot resume dead coroutine"), cur, status, last⟩
  else
    match step self with
    | .yield vs => ⟨.ok vs, cur, .suspended, vs⟩
    | .ret vs => ⟨.ok vs, cur, .dead, vs⟩
    | .luaErr m => ⟨.error (.lua m), cur, .running, last⟩
    | .hostErr m => ⟨.error (.host m), cur, .running, last⟩

/-- Model of the base-library `pcall` (src/lib/globals.ts).  A non-function
argument (`none`) throws "Attempt to call non-function" OUTSIDE the
try/catch; a function argument's behaviour is its outcome: a normal return
is prefixed with true, and ANY exception — domain or host — is caught,
yielding false plus `e.toString()`. -/
def pcallM (f : Option (Except JsExc (List LV))) : Except JsExc (List LV) :=
  match f with
  | none => .error (.lua "Attempt to call non-function")
  | some (.ok vs) => .ok (.boolean true :: vs)
  | some (.error e) => .ok [.boolean false, .str (excToString e)]

/-- JS `%` for finite nonnegative operands with a nonzero divisor:
`a - b * trunc(a / b)`, which for nonnegative operands is `a - b * ⌊a/b⌋`.
This is the shape in which the source applies `%` (on `Math.abs` values). -/
def jsFmodNonneg (a b : ℚ) : ℚ := a - b * ⌊a / b⌋

/-- Model of the `mod` operator's numeric computation (src/operators.ts),
after metamethod dispatch and numeric coercion: NaN when the divisor is
zero or infinite or either operand is NaN (and, through JS `%`, when the
dividend is infinite); otherwise the remainder of the absolute values,
complemented by `|b|` when the operand signs differ, negated when the
divisor is negative. -/
def luaModOp (left right : LuaNum) : LuaNum :=
  match left, right with
  | .nan, _ => .nan
  | _, .nan => .nan
  | _, .pinf => .nan
  | _, .ninf => .nan
  | .pinf, _ => .nan
  | .ninf, _ => .nan
  | .fin l, .fin r =>
    if r = 0 then .nan
    else
      let res0 := jsFmodNonneg |l| |r|
      let res1 := if l * r < 0 then |r| - res0 else res0
      .fin (if r < 0 then -res1 else res1)

/-- Modelled from the spec: Lua's modulo definition `a - floor(a/b)*b`, the
reference the claim compares the operator against. -/
def luaModSpecQ (a b : ℚ) : ℚ := a - (⌊a / b⌋ : ℚ) * b

theorem readIdx_setIdx_self (l : List (Option LV)) (k : Nat) (v : LV) :
    readIdx (setIdx l k v) k = v := by
  unfold setIdx readIdx
  by_cases hk : k < l.length
  · rw [if_pos hk, List.get?_eq_getElem?, List.getElem?_set_self (by simpa using hk)]
  · rw [if_neg hk, List.append_assoc, List.get?_eq_getElem?,
      List.getElem?_append_right (by omega)]
    have hlen : (List.replicate (k - l.length) (none : Option LV)).length = k - l.length := by
      simp
    rw [List.getElem?_append_right (by omega), hlen]
    have hz : k - l.length - (k - l.length) = 0 := by omega
    rw [hz]
    rfl

theorem findIdxAux_append_self (k : String) :
    ∀ (l : List String) (i : Nat), (∀ x ∈ l, (x == k) = false) →
      List.findIdx? (fun s => s == k) (l ++ [k]) i = some (i + l.length) := by
  intro l
  induction l with
  | nil => intro i _; simp
  | cons a l ih =>
    intro i hall
    have ha : (a == k) = false := hall a (by simp)
    rw [List.cons_append, List.findIdx?_cons, ha]
    rw [if_neg (by simp)]
    rw [ih (i + 1) (fun x hx => hall x (by simp [hx]))]
    congr 1
    simp
    omega

theorem idxOf_append_self {l : List String} {k : String}
    (h : idxOfKey l k = none) : idxOfKey (l ++ [k]) k = some l.length := by
  unfold idxOfKey at h ⊢
  have hall := List.findIdx?_eq_none_iff.mp h
  simpa using findIdxAux_append_self k l 0 hall

theorem genericGet_genericSet (t : TableData) (key : LV) (v : LV) :
    genericGet (genericSet t key v) key = v := by
  unfold genericGet genericSet
  rcases hidx : idxOfKey t.keys (tostringKey key) with _ | i
  · simp only [hidx]
    rw [idxOf_append_self hidx]
    exact readIdx_setIdx_self t.values t.keys.length v
  · simp only [hidx]
    exact readIdx_setIdx_self t.values i v

theorem hfind_hupdate_ne (h : Heap) (r1 r2 : Nat) (t : TableData)
    (hne : r2 ≠ r1) : hfind (hupdate h r1 t) r2 = hfind h r2 := by
  unfold hfind hupdate
  rw [List.getD_eq_getElem?_getD, List.getD_eq_getElem?_getD,
    List.getElem?_set_ne (fun he => hne he.symm)]

theorem posIntKey_ge_one {n : LuaNum} {k : Nat} (h : posIntKey n = some k) :
    1 ≤ k := by
  cases n with
  | fin q =>
    simp only [posIntKey] at h
    by_cases hq : 0 < q ∧ q.den = 1
    · rw [if_pos hq] at h
      have hnum : 0 < q.num := Rat.num_pos.mpr hq.1
      have hk := Option.some.inj h
      omega
    · rw [if_neg hq] at h; exact absurd h (by simp)
  | nan => simp [posIntKey] at h
  | pinf => simp [posIntKey] at h
  | ninf => simp [posIntKey] at h

theorem head?_setIdx (x : Option LV) (l : List (Option LV)) (k : Nat) (v : LV)
    (hk : 1 ≤ k) : (setIdx (x :: l) k v).head? = some x := by
  unfold setIdx
  by_cases hlt : k < (x :: l).length
  · rw [if_pos hlt]
    obtain ⟨k', rfl⟩ : ∃ k', k = k' + 1 := ⟨k - 1, by omega⟩
    rfl
  · rw [if_neg hlt]
    rfl

theorem sentinel0_shape {t : TableData} (ht : sentinel0 t) :
    ∃ l, t.numValues = some LV.nil :: l := by
  unfold sentinel0 at ht
  cases hnv : t.numValues with
  | nil => rw [hnv] at ht; exact absurd ht (by simp)
  | cons x l =>
    rw [hnv] at ht
    simp only [List.head?_cons, Option.some.injEq] at ht
    refine ⟨l, ?_⟩
    rw [ht]

theorem sentinel0_of_shape {t : TableData} {l : List (Option LV)}
    (h : t.numValues = some LV.nil :: l) : sentinel0 t := by
  unfold sentinel0
  rw [h]
  rfl

theorem sentinel0_genericSet (t : TableData) (key v : LV) (ht : sentinel0 t) :
    sentinel0 (genericSet t key v) := by
  unfold genericSet
  rcases idxOfKey t.keys (tostringKey key) with _ | i <;> exact ht

theorem sentinel0_rawsetD (t : TableData) (k v : LV) (ht : sentinel0 t) :
    sentinel0 (rawsetD t k v) := by
  cases k with
  | num n =>
    rcases hp : posIntKey n with _ | knat
    · simp only [rawsetD, hp]
      exact sentinel0_genericSet t _ v ht
    · simp only [rawsetD, hp]
      obtain ⟨l, hl⟩ := sentinel0_shape ht
      unfold sentinel0
      simp only [hl]
      exact head?_setIdx _ l knat v (posIntKey_ge_one hp)
  | str s => simp only [rawsetD]; exact ht
  | nil => simp only [rawsetD]; exact sentinel0_genericSet t _ v ht
  | boolean b => simp only [rawsetD]; exact sentinel0_genericSet t _ v ht
  | fn i => simp only [rawsetD]; exact sentinel0_genericSet t _ v ht
  | table r => simp only [rawsetD]; exact sentinel0_genericSet t _ v ht
  | thr i => simp only [rawsetD]; exact sentinel0_genericSet t _ v ht

theorem head?_clearUndefLoop :
    ∀ (fuel : Nat) (l : List (Option LV)) (i : Nat), 1 ≤ i →
      (clearUndefLoop l fuel i).head? = l.head? := by
  intro fuel
  induction fuel with
  | zero => intro l i _; rfl
  | succ fuel ih =>
    intro l i hi
    unfold clearUndefLoop
    by_cases hr : readIdx l i = LV.nil
    · rw [if_pos hr, ih (l.set i none) (i + 1) (by omega)]
      cases l with
      | nil => rfl
      | cons x l =>
        obtain ⟨i', rfl⟩ : ∃ i', i = i' + 1 := ⟨i - 1, by omega⟩
        rfl
    · rw [if_neg hr]

theorem sentinel0_applyOp (t : TableData) (op : TblOp) (ht : sentinel0 t)
    (hok : removeOK op) : sentinel0 (applyOp t op) := by
  cases op with
  | rawsetO k v => exact sentinel0_rawsetD t k v ht
  | setO k v => exact sentinel0_rawsetD t k v ht
  | insertPushO vs =>
    obtain ⟨l, hl⟩ := sentinel0_shape ht
    unfold applyOp tableInsertPush sentinel0
    simp [hl]
  | insertAtO pos v =>
    refine sentinel0_rawsetD _ _ v ?_
    obtain ⟨l, hl⟩ := sentinel0_shape ht
    unfold sentinel0
    simp only [hl]
    rcases hj : spliceIndex (some LV.nil :: l).length pos with _ | j
    · rfl
    · rfl
  | removeO pos =>
    simp only [applyOp, libRemove]
    by_cases hout : pos > (getn t.numValues : Int) ∨ pos < 0
    · rw [if_pos hout]; exact ht
    · rw [if_neg hout]
      unfold removeOK at hok
      have hp1 : 1 ≤ pos.toNat := by omega
      obtain ⟨l, hl⟩ := sentinel0_shape ht
      unfold sentinel0
      simp only [hl]
      rw [head?_clearUndefLoop _ _ _ hp1]
      obtain ⟨p', hp'⟩ : ∃ p', pos.toNat = p' + 1 := ⟨pos.toNat - 1, by omega⟩
      rw [hp']
      rfl
  | sortO tail => rfl

theorem sentinel0_applyOps :
    ∀ (ops : List TblOp) (t : TableData), sentinel0 t →
      (∀ op ∈ ops, removeOK op) → sentinel0 (applyOps t ops) := by
  intro ops
  induction ops with
  | nil => intro t ht _; exact ht
  | cons op ops ih =>
    intro t ht hops
    exact ih (applyOp t op)
      (sentinel0_applyOp t op ht (hops op (by simp)))
      (fun o ho => hops o (by simp [ho]))

theorem setTargetIdx_cons (f : Frame) (c : SChain) (k : String)
    (hf : frameHas f k = false) (hc : c ≠ []) :
    setTargetIdx (f :: c) k = setTargetIdx c k + 1 := by
  unfold setTargetIdx
  rw [List.findIdx_cons, hf]
  simp only [cond_false, List.length_cons]
  have hlen : 1 ≤ c.length := by
    cases c with
    | nil => exact absurd rfl hc
    | cons a l => simp
  by_cases hi : c.findIdx (fun fr => frameHas fr k) < c.length
  · rw [if_pos (by omega), if_pos hi]
  · rw [if_neg (by omega), if_neg hi]
    omega

theorem sSet_target :
    ∀ (c : SChain) (k : String) (v : LV), c ≠ [] →
      sSet c k v =
        c.set (setTargetIdx c k) (frameSet (c.getD (setTargetIdx c k) []) k v) := by
  intro c
  induction c with
  | nil => intro k v hc; exact absurd rfl hc
  | cons f c ih =>
    intro k v _
    cases c with
    | nil =>
      rcases hf : frameHas f k with _ | _
      · simp [sSet, setTargetIdx, List.findIdx_cons, hf]
      · simp [sSet, setTargetIdx, List.findIdx_cons, hf]
    | cons g rest =>
      rcases hf : frameHas f k with _ | _
      · rw [setTargetIdx_cons f (g :: rest) k hf (by simp)]
        simp only [sSet, hf, Bool.false_eq_true, if_false]
        rw [ih k v (by simp)]
        rfl
      · unfold setTargetIdx
        rw [List.findIdx_cons, hf]
        simp only [cond_true, List.length_cons]
        rw [if_pos (by omega)]
        simp [sSet, hf]

theorem threadResume_result_eq (step : Nat → StepRes) (self : Nat)
    (st : TStatus) (last : List LV) (cur : Nat) :
    (threadResume step self st last cur).result =
      if st = .dead then .error (.lua "cannot resume dead coroutine")
      else stepOutcome (step self) := by
  cases st <;> cases hs : step self <;> simp [threadResume, stepOutcome, hs]

theorem threadResume_current_eq (step : Nat → StepRes) (self : Nat)
    (st : TStatus) (last : List LV) (cur : Nat) :
    (threadResume step self st last cur).currentAfter = cur := by
  cases st <;> cases hs : step self <;> simp [threadResume, hs]

/-- Claim C5 (corrected).  `Thread.resume` gates resumption only on the dead
status: a dead thread raises the domain error "cannot resume dead coroutine"
and any non-dead thread — suspended OR running — is advanced; there is no
check that the status is suspended. -/
theorem c5_resume_raises_only_on_dead (step : Nat → StepRes) (self : Nat)
    (st : TStatus) (last : List LV) (cur : Nat) :
    (threadResume step self st last cur).result =
      if st = .dead then .error (.lua "cannot resume dead coroutine")
      else stepOutcome (step self) :=
  threadResume_result_eq step self st last cur

/-- Claim C5 counterexample: resuming a thread whose status is `running` —
not `suspended` — raises nothing; the step outcome is returned normally,
refuting "calling resume on a thread whose status is not suspended raises". -/
theorem c5_counterexample :
    (threadResume (fun _ => .ret []) 7 .running [] 0).result = .ok [] ∧
    TStatus.running ≠ TStatus.suspended :=
  ⟨rfl, by decide⟩

/-- Claim C6 (confirmed).  On every exit path of `Thread.resume` — the
dead-coroutine raise, a normal yield or return, a domain error, or a host
exception from the generator step — the global `Thread.current` pointer
after the call equals its value before the call; and whenever the body runs
(status not dead), the step is taken with `Thread.current` switched to the
resumed thread (the step oracle is applied to `self`). -/
theorem c6_current_restored (step : Nat → StepRes) (self : Nat)
    (st : TStatus) (last : List LV) (cur : Nat) :
    (threadResume step self st last cur).currentAfter = cur ∧
    (st ≠ .dead →
      (threadResume step self st last cur).result = stepOutcome (step self)) := by
  refine ⟨threadResume_current_eq step self st last cur, fun hne => ?_⟩
  rw [threadResume_result_eq, if_neg hne]

/-- Witness for C6 at a concrete suspended thread and yielding step. -/
theorem c6_witness :
    (threadResume (fun _ => .yield [.boolean true]) 3 .suspended [] 5).currentAfter = 5 ∧
    (threadResume (fun _ => .yield [.boolean true]) 3 .suspended [] 5).result =
      stepOutcome ((fun _ => StepRes.yield [.boolean true]) 3) :=
  ⟨(c6_current_restored (fun _ => .yield [.boolean true]) 3 .suspended [] 5).1,
   (c6_current_restored (fun _ => .yield [.boolean true]) 3 .suspended [] 5).2 (by decide)⟩

/-- Claim C4 (corrected).  `pcall` prefixes a normal return with true; it
catches EVERY exception — domain and host alike — and returns false plus the
exception's `toString()` (for a `LuaError` that is "LuaError: " followed by
the message, not the bare message); a non-function argument throws outside
the protection. -/
theorem c4_pcall_wraps_everything (vs : List LV) (e : JsExc) (m : String) :
    pcallM (some (.ok vs)) = .ok (.boolean true :: vs) ∧
    pcallM (some (.error e)) = .ok [.boolean false, .str (excToString e)] ∧
    pcallM (some (.error (.lua m))) = .ok [.boolean false, .str ("LuaError: " ++ m)] ∧
    pcallM none = .error (.lua "Attempt to call non-function") :=
  ⟨rfl, rfl, rfl, rfl⟩

/-- Claim C4 counterexample: a domain error with message "boom" makes pcall
return the decorated string "LuaError: boom", not the message itself, and a
host exception is caught rather than escaping. -/
theorem c4_counterexample :
    pcallM (some (.error (.lua "boom"))) = .ok [.boolean false, .str "LuaError: boom"] ∧
    ("LuaError: boom" : String) ≠ "boom" ∧
    pcallM (some (.error (.host "TypeError: x is not a function"))) =
      .ok [.boolean false, .str "TypeError: x is not a function"] :=
  ⟨rfl, by decide, rfl⟩

/-- Claim C8 (confirmed).  `setLocal` writes only the scope it is called on;
`set` writes the nearest enclosing scope defining the key, or the root when
none does; a binding added in a fresh child scope shadows the parent for
reads while the parent frames are untouched. -/
theorem c8_scope_write_discipline (f : Frame) (rest : List Frame)
    (k : String) (v : LV) :
    sSetLocal (f :: rest) k v = frameSet f k v :: rest ∧
    sSet (f :: rest) k v =
      (f :: rest).set (setTargetIdx (f :: rest) k)
        (frameSet ((f :: rest).getD (setTargetIdx (f :: rest) k) []) k v) ∧
    sGet (sSetLocal (sExtend (f :: rest)) k v) k = v ∧
    (sSetLocal (sExtend (f :: rest)) k v).tail = f :: rest := by
  refine ⟨rfl, sSet_target (f :: rest) k v (by simp), ?_, rfl⟩
  show sGet (frameSet [] k v :: f :: rest) k = v
  simp [frameSet, frameHas, frameGet, sGet]

/-- Claim C3 (code bug).  The operator is meant to implement Lua's modulo
`a - floor(a/b)*b` (spec wording, and Lua 5.3 semantics), but at an exact
multiple with opposite signs the `absR - result` adjustment fires on a zero
remainder: `mod(-6, 3)` evaluates to 3 (the divisor) where Lua's definition
gives 0.  The NaN clauses of the claim (zero, infinite or NaN divisor, NaN
dividend) do hold, as the trailing conjuncts show. -/
theorem c3_mod_exact_negative_multiple :
    luaModOp (.fin (-6)) (.fin 3) = .fin 3 ∧
    luaModSpecQ (-6) 3 = 0 ∧
    luaModOp (.fin (-6)) (.fin 3) ≠ .fin (luaModSpecQ (-6) 3) ∧
    (∀ a, luaModOp a (.fin 0) = .nan) ∧
    (∀ a, luaModOp a .pinf = .nan) ∧
    (∀ a, luaModOp a .ninf = .nan) ∧
    (∀ b, luaModOp .nan b = .nan) ∧
    (∀ a, luaModOp a .nan = .nan) := by
  refine ⟨?_, ?_, ?_, ?_, ?_, ?_, ?_, ?_⟩
  · simp only [luaModOp, jsFmodNonneg]; norm_num
  · simp only [luaModSpecQ]; norm_num
  · simp only [luaModOp, luaModSpecQ, jsFmodNonneg]; norm_num
  · intro a; cases a <;> simp [luaModOp]
  · intro a; cases a <;> simp [luaModOp]
  · intro a; cases a <;> simp [luaModOp]
  · intro b; cases b <;> simp [luaModOp]
  · intro a; cases a <;> simp [luaModOp]

/-- Claim C1 (corrected).  Only the library-level `rawset` checks the key,
and only for nil: it raises "table index is nil" without writing.  No NaN
check exists anywhere: a NaN key is accepted and stored in the generic part
under the string "nan" (and is retrievable again with a NaN key), and
`Table.set` on a metatable-free table likewise accepts a nil key, storing
the value in the generic part under "nil". -/
theorem c1_key_checks (t : TableData) (v : LV) (app : App) (fuel : Nat)
    (h : Heap) (r : Nat) (hm : (hfind h r).metatable = none) :
    libRawset t LV.nil v = .error "table index is nil" ∧
    libRawset t (.num .nan) v = .ok (rawsetD t (.num .nan) v) ∧
    rawgetD (rawsetD t (.num .nan) v) (.num .nan) = v ∧
    rawgetD (rawsetD t LV.nil v) LV.nil = v ∧
    tset app (fuel + 1) h r LV.nil v =
      some (hupdate h r (rawsetD (hfind h r) LV.nil v)) := by
  refine ⟨by simp [libRawset], by simp [libRawset], ?_, ?_, ?_⟩
  · have hg := genericGet_genericSet t (.num .nan) v
    simpa [rawgetD, rawsetD, posIntKey] using hg
  · have hg := genericGet_genericSet t LV.nil v
    simpa [rawgetD, rawsetD] using hg
  · simp [tset, hm]

/-- Witness for C1 at a fresh table, value 42, and a one-entry heap. -/
theorem c1_witness :
    libRawset newTable LV.nil (.num (.fin 42)) = .error "table index is nil" ∧
    libRawset newTable (.num .nan) (.num (.fin 42)) =
      .ok (rawsetD newTable (.num .nan) (.num (.fin 42))) ∧
    rawgetD (rawsetD newTable (.num .nan) (.num (.fin 42))) (.num .nan) =
      .num (.fin 42) ∧
    rawgetD (rawsetD newTable LV.nil (.num (.fin 42))) LV.nil = .num (.fin 42) ∧
    tset (fun _ _ hh => (hh, .arr [])) 1 [newTable] 0 LV.nil (.num (.fin 42)) =
      some (hupdate [newTable] 0 (rawsetD (hfind [newTable] 0) LV.nil (.num (.fin 42)))) :=
  c1_key_checks newTable (.num (.fin 42)) (fun _ _ hh => (hh, .arr [])) 0 [newTable] 0 rfl

/-- Claim C1 counterexample: `rawset` with a NaN key raises no error at all —
the write succeeds and the value is retrievable at the NaN key, refuting
both "raises a domain error" and "no slot of the table is modified". -/
theorem c1_counterexample :
    libRawset newTable (.num .nan) (.num (.fin 42)) =
      .ok (rawsetD newTable (.num .nan) (.num (.fin 42))) ∧
    rawgetD (rawsetD newTable (.num .nan) (.num (.fin 42))) (.num .nan) =
      .num (.fin 42) ∧
    LV.num (.fin 42) ≠ LV.nil := by
  refine ⟨rfl, rfl, by decide⟩

/-- Claim C2 (corrected).  Without a `__len` metamethod the length operator
answers `getn`, and `getn` always returns a boundary — zero or a present
index whose successor is absent — but not necessarily the largest one (see
the counterexample with a hole before a later present slot). -/
theorem c2_len_returns_boundary (h : Heap) (r : Nat)
    (hlen : jsTruthy (getMetaMethod h (hfind h r) "__len") = false) :
    lenOp h (.table r) = .direct (getn (hfind h r).numValues) ∧
    (getn (hfind h r).numValues = 0 ∨
      readIdx (hfind h r).numValues (getn (hfind h r).numValues) ≠ LV.nil) ∧
    readIdx (hfind h r).numValues (getn (hfind h r).numValues + 1) = LV.nil := by
  refine ⟨?_, (getn_boundary _).1, (getn_boundary _).2⟩
  simp [lenOp, hlen]

/-- Witness for C2 at the fresh empty table. -/
theorem c2_witness :
    lenOp [newTable] (.table 0) = .direct (getn (hfind [newTable] 0).numValues) ∧
    (getn (hfind [newTable] 0).numValues = 0 ∨
      readIdx (hfind [newTable] 0).numValues (getn (hfind [newTable] 0).numValues) ≠ LV.nil) ∧
    readIdx (hfind [newTable] 0).numValues (getn (hfind [newTable] 0).numValues + 1) = LV.nil :=
  c2_len_returns_boundary [newTable] 0 rfl

/-- The table `{[1] = 10, [5] = 50}`: array part `[undefined, 10, hole,
hole, hole, 50]`, built by two raw writes on a fresh table. -/
def c2tbl : TableData :=
  rawsetD (rawsetD newTable (.num (.fin 1)) (.num (.fin 10))) (.num (.fin 5)) (.num (.fin 50))

/-- Claim C2 counterexample: on `{[1] = 10, [5] = 50}` the length operator
returns 1, yet 5 is also a boundary (numValues[5] present, numValues[6]
absent) and is larger — so the result is NOT the largest n with
numValues[n] present and numValues[n+1] absent. -/
theorem c2_counterexample :
    lenOp [c2tbl] (.table 0) = .direct 1 ∧
    readIdx c2tbl.numValues 5 ≠ LV.nil ∧
    readIdx c2tbl.numValues 6 = LV.nil ∧
    (1 : Nat) ≠ 5 := by
  refine ⟨rfl, by decide, rfl, by decide⟩

/-- Claim C9 (corrected).  Under construction, raw writes, metatable-free
`set`, both insert forms, sort, and `remove` at positions ≥ 1, slot 0 of
`numValues` remains the stored-undefined sentinel. -/
theorem c9_sentinel_preserved (ops : List TblOp)
    (hops : ∀ op ∈ ops, removeOK op) :
    sentinel0 (applyOps newTable ops) :=
  sentinel0_applyOps ops newTable rfl hops

/-- Witness for C9 over a trace exercising every operation kind. -/
theorem c9_witness :
    sentinel0 (applyOps newTable
      [.insertPushO [.num (.fin 10), .num (.fin 20)],
       .rawsetO (.str "a") (.boolean true),
       .insertAtO 1 (.num (.fin 5)),
       .removeO 1,
       .sortO [some (.num (.fin 20)), some (.num (.fin 10))],
       .setO (.num (.fin 2)) LV.nil]) := by
  refine c9_sentinel_preserved _ ?_
  intro op hop
  simp only [List.mem_cons, List.not_mem_nil, or_false] at hop
  rcases hop with rfl | rfl | rfl | rfl | rfl | rfl <;> simp [removeOK]

/-- Claim C9 counterexample: `rawset` with key 0 stores in the generic part
and `rawget` with key 0 retrieves it (refuting "rawget with key 0 always
returns absent"), and `table.remove` at position 0 shifts a real value into
`numValues[0]` (refuting "index 0 remains the reserved absent sentinel"). -/
theorem c9_counterexample :
    rawgetD (rawsetD newTable (.num (.fin 0)) (.num (.fin 42))) (.num (.fin 0)) =
      .num (.fin 42) ∧
    ¬ sentinel0 (applyOps newTable [.insertPushO [.num (.fin 10)], .removeO 0]) := by
  refine ⟨rfl, ?_⟩
  unfold sentinel0
  decide

/-- Claim C7 (confirmed).  The `eq` operator reaches a metamethod only when
both operands are tables, they are not reference-equal, and their metatables
are the identical (present) metatable object — and the fetched handler is
that metatable's raw `__eq` slot; in every other case the operator answers
plain JS strict equality without consulting anything. -/
theorem c7_eq_metamethod_conditions (h : Heap) (l r : LV) :
    (∀ mm, eqDispatch h l r = .viaMM mm →
      ∃ li ri m, l = .table li ∧ r = .table ri ∧ li ≠ ri ∧
        (hfind h li).metatable = some m ∧ (hfind h ri).metatable = some m ∧
        rawgetD (hfind h m) (.str "__eq") = mm) ∧
    (∀ b, eqDispatch h l r = .plain b → b = jsStrictEq l r) := by
  constructor
  · intro mm hmm
    cases l with
    | table li =>
      cases r with
      | table ri =>
        by_cases hli : li = ri
        · simp [eqDispatch, hli] at hmm
        · by_cases hmeta : (hfind h li).metatable = (hfind h ri).metatable
          · by_cases htr : jsTruthy (getMetaMethod h (hfind h li) "__eq") = true
            · have heq : eqDispatch h (.table li) (.table ri) =
                  .viaMM (getMetaMethod h (hfind h li) "__eq") := by
                simp [eqDispatch, hli, hmeta, htr]
              rw [heq] at hmm
              injection hmm with hmmv
              rcases hmt : (hfind h li).metatable with _ | m
              · rw [getMetaMethod, hmt] at htr
                exact absurd htr (by simp [jsTruthy])
              · refine ⟨li, ri, m, rfl, rfl, hli, hmt, hmeta ▸ hmt, ?_⟩
                rw [← hmmv, getMetaMethod, hmt]
            · simp [eqDispatch, hli, hmeta, htr] at hmm
          · simp [eqDispatch, hli, hmeta] at hmm
      | nil => simp [eqDispatch] at hmm
      | boolean b => simp [eqDispatch] at hmm
      | num n => simp [eqDispatch] at hmm
      | str s => simp [eqDispatch] at hmm
      | fn i => simp [eqDispatch] at hmm
      | thr i => simp [eqDispatch] at hmm
    | nil => simp [eqDispatch] at hmm
    | boolean b => simp [eqDispatch] at hmm
    | num n => simp [eqDispatch] at hmm
    | str s => simp [eqDispatch] at hmm
    | fn i => simp [eqDispatch] at hmm
    | thr i => simp [eqDispatch] at hmm
  · intro b hb
    cases l with
    | table li =>
      cases r with
      | table ri =>
        by_cases hli : li = ri
        · simp [eqDispatch, hli] at hb
          simp [hli, hb]
        · by_cases hmeta : (hfind h li).metatable = (hfind h ri).metatable
          · by_cases htr : jsTruthy (getMetaMethod h (hfind h li) "__eq") = true
            · simp [eqDispatch, hli, hmeta, htr] at hb
            · simp [eqDispatch, hli, hmeta, htr] at hb
              simp [hb]
          · simp [eqDispatch, hli, hmeta] at hb
            simp [hb]
      | nil => simpa [eqDispatch] using hb.symm
      | boolean b2 => simpa [eqDispatch] using hb.symm
      | num n => simpa [eqDispatch] using hb.symm
      | str s => simpa [eqDispatch] using hb.symm
      | fn i => simpa [eqDispatch] using hb.symm
      | thr i => simpa [eqDispatch] using hb.symm
    | nil => simpa [eqDispatch] using hb.symm
    | boolean b2 => simpa [eqDispatch] using hb.symm
    | num n => simpa [eqDispatch] using hb.symm
    | str s => simpa [eqDispatch] using hb.symm
    | fn i => simpa [eqDispatch] using hb.symm
    | thr i => simpa [eqDispatch] using hb.symm

/-- Two distinct tables sharing the metatable at reference 2, whose `__eq`
slot holds the function 0. -/
def c7heap : Heap :=
  [⟨[some LV.nil], [], [], [], some 2⟩,
   ⟨[some LV.nil], [], [], [], some 2⟩,
   ⟨[some LV.nil], [("__eq", .fn 0)], [], [], none⟩]

/-- Witness for C7: on the concrete heap the dispatch does invoke `__eq`,
and the theorem yields exactly the claimed side conditions. -/
theorem c7_witness :
    ∃ li ri m, LV.table 0 = LV.table li ∧ LV.table 1 = LV.table ri ∧ li ≠ ri ∧
      (hfind c7heap li).metatable = some m ∧ (hfind c7heap ri).metatable = some m ∧
      rawgetD (hfind c7heap m) (.str "__eq") = .fn 0 :=
  (c7_eq_metamethod_conditions c7heap (.table 0) (.table 1)).1 (.fn 0) rfl

/-- Claim C10 (confirmed).  Indexing metamethod lookup is chained while
operator metamethod lookup is raw: with a metatable `m` whose own `__index`
and `__newindex` slots are empty but whose own metatable supplies handler
tables through the chain, `Table.get` reads through the supplied `__index`
handler and `Table.set` delegates the write to the supplied `__newindex`
handler table (leaving the receiver untouched), while `getMetaMethod` — the
fetch used by every operator — sees only `m`'s raw slots, where both names
(and any operator name) are absent.  The chained fetch `m.get(name)` itself
always chases `__index` links: the handlers live on the `__index` handler
table of `m`'s metatable. -/
theorem c10_meta_lookup_asymmetry
    (app : App) (fuel : Nat) (h : Heap)
    (rt rm rm2 ridx rH rNH : Nat) (key w v : LV)
    (ht : (hfind h rt).metatable = some rm)
    (h1 : rawgetD (hfind h rm) (.str "__index") = LV.nil)
    (h2 : (hfind h rm).metatable = some rm2)
    (h3 : rawgetD (hfind h rm2) (.str "__index") = .table ridx)
    (h4 : rawgetD (hfind h ridx) (.str "__index") = .table rH)
    (h5 : rawgetD (hfind h rt) key = LV.nil)
    (h6 : rawgetD (hfind h rH) key = v)
    (h7 : v ≠ LV.nil)
    (h8 : rawgetD (hfind h rm) (.str "__newindex") = LV.nil)
    (h9 : rawgetD (hfind h ridx) (.str "__newindex") = .table rNH)
    (h11 : (hfind h rNH).metatable = none)
    (h12 : rt ≠ rNH) :
    tget app (fuel + 3) h rt key = some (h, v) ∧
    (∀ name, getMetaMethod h (hfind h rt) name = rawgetD (hfind h rm) (.str name)) ∧
    tset app (fuel + 3) h rt key w =
      some (hupdate h rNH (rawsetD (hfind h rNH) key w)) ∧
    hfind (hupdate h rNH (rawsetD (hfind h rNH) key w)) rt = hfind h rt := by
  refine ⟨?_, ?_, ?_, hfind_hupdate_ne h rNH rt _ h12⟩
  · show tget app (fuel + 2 + 1) h rt key = some (h, v)
    simp [tget, h5, ht, h1, h2, h3, h4, h6, h7]
  · intro name
    rw [getMetaMethod, ht]
  · show tset app (fuel + 2 + 1) h rt key w = _
    simp [tset, tget, ht, h8, h2, h3, h9, h5, h11, jsTruthy]

/-- Heap for the C10 witness: table 0 with metatable 1; 1's own slots empty
with metatable 2; 2's `__index` is the handler table 3; 3 supplies `__index`
(table 4) and `__newindex` (table 5); 4 holds the value at "x"; 5 is the
plain write-target table. -/
def c10heap : Heap :=
  [⟨[some LV.nil], [], [], [], some 1⟩,
   ⟨[some LV.nil], [], [], [], some 2⟩,
   ⟨[some LV.nil], [("__index", .table 3)], [], [], none⟩,
   ⟨[some LV.nil], [("__index", .table 4), ("__newindex", .table 5)], [], [], none⟩,
   ⟨[some LV.nil], [("x", .num (.fin 99))], [], [], none⟩,
   ⟨[some LV.nil], [], [], [], none⟩]

/-- Witness for C10 on the concrete heap: indexing sees the chained handler,
the write is delegated to the chained `__newindex` table, the receiver is
untouched, and operator fetches read only the metatable's raw slots. -/
theorem c10_witness :
    tget (fun _ _ hh => (hh, .arr [])) 3 c10heap 0 (.str "x") =
      some (c10heap, .num (.fin 99)) ∧
    (∀ name, getMetaMethod c10heap (hfind c10heap 0) name =
      rawgetD (hfind c10heap 1) (.str name)) ∧
    tset (fun _ _ hh => (hh, .arr [])) 3 c10heap 0 (.str "x") (.num (.fin 7)) =
      some (hupdate c10heap 5 (rawsetD (hfind c10heap 5) (.str "x") (.num (.fin 7)))) ∧
    hfind (hupdate c10heap 5 (rawsetD (hfind c10heap 5) (.str "x") (.num (.fin 7)))) 0 =
      hfind c10heap 0 :=
  c10_meta_lookup_asymmetry (fun _ _ hh => (hh, .arr [])) 0 c10heap 0 1 2 3 4 5
    (.str "x") (.num (.fin 7)) (.num (.fin 99))
    rfl rfl rfl rfl rfl rfl rfl (by decide) rfl rfl rfl (by decide)

end LuaInJs
